import Mathlib

/-!
Shallow embedding of the Identity-Asset-Dashboard repository's
list-transformation + client-cache pipeline, and proofs of the spec's claims.

Sources embedded:
- `src/app/pages/CertificatesPage.tsx` (loader, pipeline, pagination, local edit)
- `src/app/pages/SSHKeysPage.tsx` (sort stage)
- the audit-logs page (incremental reveal pipeline)
- `src/contexts/DashboardContext.tsx` (cache store)

Host-library semantics the code relies on are modelled explicitly:
`JSON.stringify`/`JSON.parse` as an executable serializer/parser pair over a
JSON value type, `Array.prototype.sort` as a stable insertion sort driven by
the comparator, `new Date(s).getTime()` as an ISO-8601 to epoch-milliseconds
conversion, `String.prototype.toLowerCase`/`includes` as character-wise
lowering and substring search, and `localeCompare` as a total lexicographic
character ordering.
-/

namespace IdDash

/-! ### Stable sort: model of `Array.prototype.sort(cmp)` (ES2019 requires
stability).  `le a b` means `cmp(a, b) <= 0`.  `insertLe` places the new
element before the first list element `y` with `le x y`, so an element
inserted later never jumps ahead of an earlier tied element. -/

def insertLe (le : α → α → Bool) (x : α) : List α → List α
  | [] => [x]
  | y :: ys => if le x y then x :: y :: ys else y :: insertLe le x ys

def sortLe (le : α → α → Bool) : List α → List α
  | [] => []
  | x :: xs => insertLe le x (sortLe le xs)

/-! ### String helpers: models of `toLowerCase`, `includes`, `localeCompare`. -/

/-- Model of `String.prototype.toLowerCase` (ASCII range, which is all the
code's fixtures and the claims exercise). -/
def lowerStr (s : String) : String := String.mk (s.data.map Char.toLower)

/-- Substring test on character lists: `needle` occurs contiguously in
`haystack`.  Model of `String.prototype.includes`. -/
def inclChars (haystack needle : List Char) : Bool :=
  match haystack with
  | [] => needle.isEmpty
  | _ :: t => needle.isPrefixOf haystack || inclChars t needle

def inclStr (haystack needle : String) : Bool :=
  inclChars haystack.data needle.data

/-- Model of `a.localeCompare(b) <= 0`: total lexicographic order on code
points.  The exact locale order is host-defined; every claim that touches the
name sort mode only needs it to be a transitive total comparison. -/
def lexLe : List Char → List Char → Bool
  | a :: as, b :: bs => if a = b then lexLe as bs else decide (a < b)
  | [], _ => true
  | _, [] => false

/-! ### Dates: model of `new Date(isoString).getTime()`.

The fixtures' date attributes are zero-padded ISO-8601 strings
(`YYYY-MM-DD`, optionally followed by `THH:MM:SS...`), which JavaScript
parses as UTC instants.  The model converts the civil date to days since
the Unix epoch and then to milliseconds; malformed strings (which no claim
exercises — JavaScript would yield `NaN`) map to 0. -/

def isLeap (y : Nat) : Bool :=
  (y % 4 == 0 && y % 100 != 0) || y % 400 == 0

def daysInMonth (y m : Nat) : Nat :=
  match m with
  | 1 => 31 | 2 => if isLeap y then 29 else 28 | 3 => 31 | 4 => 30
  | 5 => 31 | 6 => 30 | 7 => 31 | 8 => 31
  | 9 => 30 | 10 => 31 | 11 => 30 | 12 => 31
  | _ => 0

def daysBeforeYear (y : Nat) : Nat :=
  (List.range (y - 1970)).foldl (fun acc i => acc + (if isLeap (1970 + i) then 366 else 365)) 0

def daysBeforeMonth (y m : Nat) : Nat :=
  (List.range (m - 1)).foldl (fun acc i => acc + daysInMonth y (i + 1)) 0

def charDigit (c : Char) : Nat := c.toNat - 48

/-- Read exactly `n` decimal digits; junk yields `none`. -/
def readNatN : Nat → List Char → Option (Nat × List Char)
  | 0, cs => some (0, cs)
  | n + 1, c :: cs =>
    if c.isDigit then
      (readNatN n cs).bind fun (v, r) => some (charDigit c * 10 ^ n + v, r)
    else none
  | _ + 1, [] => none

def expectChar (c : Char) : List Char → Option (List Char)
  | c' :: cs => if c' = c then some cs else none
  | [] => none

/-- Parse the optional `THH:MM:SS` part into seconds-within-day. -/
def parseTimePart : List Char → Nat
  | 'T' :: cs =>
    (do
      let (hh, r1) ← readNatN 2 cs
      let r2 ← expectChar ':' r1
      let (mm, r3) ← readNatN 2 r2
      let r4 ← expectChar ':' r3
      let (ss, _) ← readNatN 2 r4
      pure (hh * 3600 + mm * 60 + ss)).getD 0
  | _ => 0

/-- Model of `new Date(s).getTime()` (milliseconds since the Unix epoch) for
zero-padded ISO-8601 strings with year ≥ 1970, as used by the fixtures. -/
def parseDate (s : String) : Int :=
  (do
    let (y, r1) ← readNatN 4 s.data
    let r2 ← expectChar '-' r1
    let (m, r3) ← readNatN 2 r2
    let r4 ← expectChar '-' r3
    let (d, r5) ← readNatN 2 r4
    let secs := (daysBeforeYear y + daysBeforeMonth y m + (d - 1)) * 86400 + parseTimePart r5
    pure (Int.ofNat (secs * 1000))).getD 0

/-! ### Certificate data model and list pipeline
(`src/app/pages/CertificatesPage.tsx`). -/

structure Certificate where
  id : String
  name : String
  domain : String
  issuer : String
  status : String
  expiryDate : String
  commonName : String
  serialNumber : String
  algorithm : String
  createdAt : String
  deriving DecidableEq, Repr

def ITEMS_PER_PAGE : Nat := 10

/-- Categorical filter stage: `if (filterDomain !== 'all') result = result.filter(c => c.domain === filterDomain)`. -/
def domainStage (filterDomain : String) (xs : List Certificate) : List Certificate :=
  if filterDomain ≠ "all" then xs.filter (fun c => c.domain = filterDomain) else xs

/-- One record's search predicate: term is a case-insensitive substring of
name, domain or issuer. -/
def certMatches (searchTerm : String) (c : Certificate) : Bool :=
  inclStr (lowerStr c.name) (lowerStr searchTerm) ||
  inclStr (lowerStr c.domain) (lowerStr searchTerm) ||
  inclStr (lowerStr c.issuer) (lowerStr searchTerm)

/-- Search stage: `if (searchTerm) result = result.filter(...)`; the empty
string is falsy, so it retains everything. -/
def searchStage (searchTerm : String) (xs : List Certificate) : List Certificate :=
  if searchTerm ≠ "" then xs.filter (certMatches searchTerm) else xs

/-- The sort comparator, as `cmp(a, b) <= 0`: by expiry instant when
`sortBy === 'expiryDate'`, otherwise `a.name.localeCompare(b.name)`. -/
def certLe (sortBy : String) (a b : Certificate) : Bool :=
  if sortBy = "expiryDate" then
    decide (parseDate a.expiryDate ≤ parseDate b.expiryDate)
  else
    lexLe a.name.data b.name.data

def sortStage (sortBy : String) (xs : List Certificate) : List Certificate :=
  sortLe (certLe sortBy) xs

/-- `filteredAndSorted` from the certificates page: domain filter, then
search, then stable sort. -/
def filteredAndSorted (filterDomain searchTerm sortBy : String)
    (certificates : List Certificate) : List Certificate :=
  sortStage sortBy (searchStage searchTerm (domainStage filterDomain certificates))

/-- `paginatedData`: `filteredAndSorted.slice((page-1)*10, page*10)`. -/
def paginatedData (currentPage : Nat) (fs : List Certificate) : List Certificate :=
  (fs.drop ((currentPage - 1) * ITEMS_PER_PAGE)).take ITEMS_PER_PAGE

/-- `totalPages = Math.ceil(filteredAndSorted.length / ITEMS_PER_PAGE)`. -/
def totalPages (fs : List Certificate) : Nat :=
  (fs.length + (ITEMS_PER_PAGE - 1)) / ITEMS_PER_PAGE

/-- The Previous button: `setCurrentPage(p => Math.max(1, p - 1))`. -/
def prevPageReq (p : Nat) : Nat := max 1 (p - 1)

/-- The Next button: `setCurrentPage(p => Math.min(totalPages, p + 1))`. -/
def nextPageReq (tp p : Nat) : Nat := min tp (p + 1)

/-! ### JSON: executable model of `JSON.stringify` / `JSON.parse`.

The cache store serializes `\x7b data, timestamp \x7d` through the host's
JSON library.  We model JSON values with a mutual inductive (arrays and
objects as their own list-like types, so that mutual recursion and induction
stay structural), a stringifier producing exactly the host's compact output
shape, and a total fuel-indexed parser that fails on malformed input. -/

mutual
inductive Json where
  | null : Json
  | bool (b : Bool) : Json
  | num (n : Int) : Json
  | str (s : String) : Json
  | arr (a : JsonArr) : Json
  | obj (o : JsonObj) : Json
inductive JsonArr where
  | nil : JsonArr
  | cons (v : Json) (tl : JsonArr) : JsonArr
inductive JsonObj where
  | nil : JsonObj
  | cons (k : String) (v : Json) (tl : JsonObj) : JsonObj
end

def qChar : Char := Char.ofNat 34

def bsChar : Char := Char.ofNat 92

def lbrace : Char := Char.ofNat 123

def rbrace : Char := Char.ofNat 125

/-- String-body escaping (quote and backslash), with the closing quote
appended. -/
def escBody : List Char → List Char
  | [] => [qChar]
  | c :: cs => if c = qChar ∨ c = bsChar then bsChar :: c :: escBody cs else c :: escBody cs

/-- Decimal digits of `m`, most significant first. -/
def natChars (m : Nat) : List Char :=
  if _h : m < 10 then [Nat.digitChar m]
  else natChars (m / 10) ++ [Nat.digitChar (m % 10)]
  decreasing_by exact Nat.div_lt_self (by omega) (by omega)

def intChars (n : Int) : List Char :=
  if n < 0 then '-' :: natChars n.natAbs else natChars n.toNat

def sepA : JsonArr → List Char
  | .nil => []
  | .cons _ _ => [',']

def sepO : JsonObj → List Char
  | .nil => []
  | .cons _ _ _ => [',']

mutual
def sV : Json → List Char
  | .null => "null".data
  | .bool true => "true".data
  | .bool false => "false".data
  | .num n => intChars n
  | .str s => qChar :: escBody s.data
  | .arr a => '[' :: sA a
  | .obj o => lbrace :: sO o
def sA : JsonArr → List Char
  | .nil => [']']
  | .cons v tl =>
    sV v ++ sepA tl ++ sA tl
def sO : JsonObj → List Char
  | .nil => [rbrace]
  | .cons k v tl =>
    qChar :: escBody k.data ++ ':' :: sV v ++ sepO tl ++ sO tl
end

/-- `JSON.stringify`, as the page and the context call it. -/
def stringifyJson (v : Json) : String := String.mk (sV v)

def charDigitVal (c : Char) : Nat := c.toNat - 48

def digitsToNat (ds : List Char) : Nat :=
  ds.foldl (fun acc c => acc * 10 + charDigitVal c) 0

/-- Longest digit run at the head of the input. -/
def takeDigits : List Char → List Char × List Char
  | [] => ([], [])
  | c :: r =>
    if c.isDigit then
      let t := takeDigits r
      (c :: t.1, t.2)
    else ([], c :: r)

/-- String-body parsing, with `esc` recording a pending backslash. -/
def parseStrB : Bool → List Char → Option (List Char × List Char)
  | _, [] => none
  | true, c :: cs => (parseStrB false cs).map (fun p => (c :: p.1, p.2))
  | false, c :: cs =>
    if c = bsChar then parseStrB true cs
    else if c = qChar then some ([], cs)
    else (parseStrB false cs).map (fun p => (c :: p.1, p.2))

/-- Consume an expected literal character sequence. -/
def dropLit : List Char → List Char → Option (List Char)
  | [], cs => some cs
  | l :: ls, c :: cs => if c = l then dropLit ls cs else none
  | _ :: _, [] => none

mutual
def parseVal : Nat → List Char → Option (Json × List Char)
  | 0, _ => none
  | _ + 1, [] => none
  | fuel + 1, c :: cs =>
    if c.isDigit then
      let t := takeDigits (c :: cs)
      some (.num (Int.ofNat (digitsToNat t.1)), t.2)
    else if c = '-' then
      match takeDigits cs with
      | ([], _) => none
      | (ds, r) => some (.num (-(Int.ofNat (digitsToNat ds))), r)
    else if c = 'n' then
      (dropLit "ull".data cs).map (fun r => (.null, r))
    else if c = 't' then
      (dropLit "rue".data cs).map (fun r => (.bool true, r))
    else if c = 'f' then
      (dropLit "alse".data cs).map (fun r => (.bool false, r))
    else if c = qChar then
      (parseStrB false cs).map (fun p => (.str (String.mk p.1), p.2))
    else if c = '[' then
      if cs.head? = some ']' then some (.arr .nil, cs.tail)
      else (parseElems fuel cs).map (fun p => (.arr p.1, p.2))
    else if c = lbrace then
      if cs.head? = some rbrace then some (.obj .nil, cs.tail)
      else (parseMembers fuel cs).map (fun p => (.obj p.1, p.2))
    else none

def parseElems : Nat → List Char → Option (JsonArr × List Char)
  | 0, _ => none
  | fuel + 1, cs =>
    match parseVal fuel cs with
    | none => none
    | some (v, r) =>
      match r with
      | [] => none
      | c :: r2 =>
        if c = ',' then (parseElems fuel r2).map (fun p => (.cons v p.1, p.2))
        else if c = ']' then some (.cons v .nil, r2)
        else none

def parseMembers : Nat → List Char → Option (JsonObj × List Char)
  | 0, _ => none
  | fuel + 1, cs =>
    match cs with
    | [] => none
    | c :: cs2 =>
      if c = qChar then
        match parseStrB false cs2 with
        | none => none
        | some (k, r1) =>
          match r1 with
          | [] => none
          | c2 :: r2 =>
            if c2 = ':' then
              match parseVal fuel r2 with
              | none => none
              | some (v, r3) =>
                match r3 with
                | [] => none
                | c3 :: r4 =>
                  if c3 = ',' then
                    (parseMembers fuel r4).map (fun p => (.cons (String.mk k) v p.1, p.2))
                  else if c3 = rbrace then some (.cons (String.mk k) v .nil, r4)
                  else none
            else none
      else none
end

/-- `JSON.parse`: parse the whole input or fail (as an `Option`, modelling
the thrown `SyntaxError`). -/
def parseJson (s : String) : Option Json :=
  match parseVal (s.data.length + 1) s.data with
  | some (v, []) => some v
  | _ => none

mutual
def dV : Json → Nat
  | .null | .bool _ | .num _ | .str _ => 0
  | .arr a => dA a + 1
  | .obj o => dO o + 1
def dA : JsonArr → Nat
  | .nil => 0
  | .cons v tl => max (dV v) (dA tl) + 1
def dO : JsonObj → Nat
  | .nil => 0
  | .cons _ v tl => max (dV v) (dO tl) + 1
end

def headDigitFree : List Char → Bool
  | [] => true
  | c :: _ => !c.isDigit

/-! ### SSH keys (`src/app/pages/SSHKeysPage.tsx`): the sort stage. -/

structure SSHKey where
  id : String
  keyOwner : String
  fingerprint : String
  lastUsed : String
  trustLevel : String
  algorithm : String
  createdAt : String
  associatedServers : List String
  deriving DecidableEq, Repr

/-- `getTrustLevelValue`; an unknown level yields `undefined` (hence `NaN`
arithmetic) in JavaScript, which no fixture or claim exercises — modelled
as 0. -/
def getTrustLevelValue (level : String) : Nat :=
  if level = "high" then 3
  else if level = "medium" then 2
  else if level = "low" then 1
  else 0

/-- The SSH-keys comparator as `cmp(a, b) <= 0`: descending trust value when
`sortBy === 'trustLevel'`, else `a.keyOwner.localeCompare(b.keyOwner)`. -/
def sshLe (sortBy : String) (a b : SSHKey) : Bool :=
  if sortBy = "trustLevel" then
    decide (getTrustLevelValue b.trustLevel ≤ getTrustLevelValue a.trustLevel)
  else
    lexLe a.keyOwner.data b.keyOwner.data

def sshSortStage (sortBy : String) (xs : List SSHKey) : List SSHKey :=
  sortLe (sshLe sortBy) xs

/-! ### Audit logs (incremental-reveal view): pipeline and per-view state. -/

structure AuditLog where
  id : String
  timestamp : String
  actor : String
  email : String
  actionType : String
  targetResource : String
  resourcePath : String
  metadata : Json

def ITEMS_PER_LOAD : Nat := 10

/-- Per-view pipeline state: `dateRange.from`/`.to` are `Date | undefined`,
modelled as optional instants. -/
structure AuditState where
  logs : List AuditLog
  filterAction : String
  searchTerm : String
  dateFrom : Option Int
  dateTo : Option Int
  displayedCount : Nat
  loading : Bool

def actionStage (filterAction : String) (xs : List AuditLog) : List AuditLog :=
  if filterAction ≠ "all" then xs.filter (fun l => l.actionType = filterAction) else xs

def auditMatches (searchTerm : String) (l : AuditLog) : Bool :=
  inclStr (lowerStr l.actor) (lowerStr searchTerm) ||
  inclStr (lowerStr l.targetResource) (lowerStr searchTerm) ||
  inclStr (lowerStr l.actionType) (lowerStr searchTerm)

def auditSearchStage (searchTerm : String) (xs : List AuditLog) : List AuditLog :=
  if searchTerm ≠ "" then xs.filter (auditMatches searchTerm) else xs

def dateFromStage (lo : Option Int) (xs : List AuditLog) : List AuditLog :=
  match lo with
  | some f => xs.filter (fun l => decide (f ≤ parseDate l.timestamp))
  | none => xs

def dateToStage (hi : Option Int) (xs : List AuditLog) : List AuditLog :=
  match hi with
  | some t => xs.filter (fun l => decide (parseDate l.timestamp ≤ t))
  | none => xs

/-- `filteredLogs`: action filter, then text search, then date bounds —
and no sort stage. -/
def filteredLogs (s : AuditState) : List AuditLog :=
  dateToStage s.dateTo
    (dateFromStage s.dateFrom
      (auditSearchStage s.searchTerm
        (actionStage s.filterAction s.logs)))

/-- `displayedLogs = filteredLogs.slice(0, displayedCount)`. -/
def displayedLogs (s : AuditState) : List AuditLog :=
  (filteredLogs s).take s.displayedCount

/-- `loadMore` (lines 111-115). -/
def loadMore (s : AuditState) : AuditState :=
  if s.displayedCount < (filteredLogs s).length then
    let n := min (s.displayedCount + ITEMS_PER_LOAD) (filteredLogs s).length
    { s with displayedCount := n }
  else s

inductive AuditEvent where
  | reveal
  | setFilter (a : String)
  | setSearch (t : String)
  | setRange (lo hi : Option Int)

/-- One UI event.  The intersection observer ignores reveal triggers while a
load is in flight (`!loading`); filter/search/range changes replace their
field and leave the revealed count alone. -/
def stepAudit (e : AuditEvent) (s : AuditState) : AuditState :=
  match e with
  | .reveal => if s.loading then s else loadMore s
  | .setFilter a => { s with filterAction := a }
  | .setSearch t => { s with searchTerm := t }
  | .setRange lo hi => { s with dateFrom := lo, dateTo := hi }

def runAudit (s : AuditState) : List AuditEvent → AuditState
  | [] => s
  | e :: es => runAudit (stepAudit e s) es

/-- The state right after `loadData` resolves on a fresh mount: dataset
published, `displayedCount` still at its initial value. -/
def loadedAuditState (logs : List AuditLog) : AuditState :=
  { logs := logs, filterAction := "all", searchTerm := "", dateFrom := none,
    dateTo := none, displayedCount := ITEMS_PER_LOAD, loading := false }

/-! ### Cache store (`src/contexts/DashboardContext.tsx`) and durable
storage. -/

def getItem : List (String × String) → String → Option String
  | [], _ => none
  | (k, v) :: rest, key => if k = key then some v else getItem rest key

def setItem : List (String × String) → String → String → List (String × String)
  | [], key, val => [(key, val)]
  | (k, v) :: rest, key, val =>
    if k = key then (key, val) :: rest else (k, v) :: setItem rest key val

def getAssoc : List (String × Json) → String → Option Json
  | [], _ => none
  | (k, v) :: rest, key => if k = key then some v else getAssoc rest key

def setAssoc : List (String × Json) → String → Json → List (String × Json)
  | [], key, val => [(key, val)]
  | (k, v) :: rest, key, val =>
    if k = key then (key, val) :: rest else (k, v) :: setAssoc rest key val

/-- The dashboard context's shared state: the in-memory mirror
(`cachedData`) and durable local storage. -/
structure Store where
  cachedData : List (String × Json)
  storage : List (String × String)

/-- `setCachedData` (DashboardContext lines 33-39): update the mirror and
write `JSON.stringify(\x7b data, timestamp: Date.now() \x7d)` under
`cache_<key>`. -/
def setCachedData (st : Store) (key : String) (data : Json) (now : Int) : Store :=
  { cachedData := setAssoc st.cachedData key data
    storage := setItem st.storage ("cache_" ++ key)
      (stringifyJson (.obj (.cons "data" data (.cons "timestamp" (.num now) .nil)))) }

def jGet : JsonObj → String → Option Json
  | .nil, _ => none
  | .cons k v tl, key => if k = key then some v else jGet tl key

/-- The read side of the cache contract: fetch the raw payload, parse it,
and project the `data`/`timestamp` fields of the cache entry. -/
def cacheGet (storage : List (String × String)) (key : String) : Option (Json × Int) :=
  match getItem storage ("cache_" ++ key) with
  | none => none
  | some raw =>
    match parseJson raw with
    | none => none
    | some j =>
      match j with
      | .obj fields =>
        match jGet fields "data", jGet fields "timestamp" with
        | some d, some (.num t) => some (d, t)
        | _, _ => none
      | _ => none

/-! ### Certificates dataset loader (`loadData`, lines 72-93), render gate
(lines 147-148) and local edit commit (lines 392-403). -/

def asStr : Option Json → Option String
  | some (.str s) => some s
  | _ => none

/-- Decode one certificate record from a JSON object.  The page performs no
validation (`setCertificates(data)` publishes whatever was stored); this
decoder is the embedding's typing boundary and the claims only exercise it on
entries the cache itself wrote. -/
def certOfJson (j : Json) : Option Certificate :=
  match j with
  | .obj f => do
    let i ← asStr (jGet f "id")
    let nm ← asStr (jGet f "name")
    let dom ← asStr (jGet f "domain")
    let iss ← asStr (jGet f "issuer")
    let st ← asStr (jGet f "status")
    let exp ← asStr (jGet f "expiryDate")
    let cn ← asStr (jGet f "commonName")
    let sn ← asStr (jGet f "serialNumber")
    let alg ← asStr (jGet f "algorithm")
    let ca ← asStr (jGet f "createdAt")
    pure ⟨i, nm, dom, iss, st, exp, cn, sn, alg, ca⟩
  | _ => none

def certToJson (c : Certificate) : Json :=
  .obj (.cons "id" (.str c.id)
    (.cons "name" (.str c.name)
      (.cons "domain" (.str c.domain)
        (.cons "issuer" (.str c.issuer)
          (.cons "status" (.str c.status)
            (.cons "expiryDate" (.str c.expiryDate)
              (.cons "commonName" (.str c.commonName)
                (.cons "serialNumber" (.str c.serialNumber)
                  (.cons "algorithm" (.str c.algorithm)
                    (.cons "createdAt" (.str c.createdAt) .nil))))))))))

def arrOfList : List Json → JsonArr
  | [] => .nil
  | j :: t => .cons j (arrOfList t)

def certsToJson (cs : List Certificate) : Json := .arr (arrOfList (cs.map certToJson))

def decodeArr : JsonArr → List Certificate
  | .nil => []
  | .cons j tl =>
    match certOfJson j with
    | some c => c :: decodeArr tl
    | none => decodeArr tl

def decodeCerts : Json → List Certificate
  | .arr a => decodeArr a
  | _ => []

/-- `const \x7b data \x7d = JSON.parse(cached)`: destructuring throws on
`null` (`none` here routes to the catch); on a non-object it yields
`undefined`, modelled as `Json.null` (unexercised by the claims). -/
def destructData : Json → Option Json
  | .null => none
  | .obj f => some ((jGet f "data").getD .null)
  | _ => some .null

/-- View + shared-context state for the certificates page. -/
structure CertState where
  certificates : List Certificate
  loading : Bool
  error : Bool
  store : Store

/-- Modelled from the spec: the bundled fixture `src/data/certificates.json`
(the canonical dataset) is not among the provided sources; §8's end-to-end
two-record dataset stands in for it, with the fields the spec leaves open
filled with fixed values. -/
def specC1 : Certificate :=
  ⟨"c1", "Cert One", "a.com", "LetsEncrypt", "active", "2099-01-01",
    "a.com", "sn-1", "RSA-2048", "2020-01-01"⟩

/-- Modelled from the spec: second record of §8's end-to-end dataset. -/
def specC2 : Certificate :=
  ⟨"c2", "Cert Two", "b.com", "LetsEncrypt", "active", "2001-01-01",
    "b.com", "sn-2", "RSA-2048", "2020-01-01"⟩

/-- Modelled from the spec: the canonical certificates dataset. -/
def certificatesData : List Certificate := [specC1, specC2]

/-- Step 1 of the load sequence (lines 74-80): serve the cached snapshot.
`if (cached)` is a JavaScript truthiness test, so the branch is skipped both
when the entry is absent and when the stored payload is the empty string
(falsy) — in either case the load falls through to the fetch.  `none` means
an exception escaped (malformed JSON or a null destructure), transferring
control to the catch block. -/
def cacheStep (s : CertState) : Option CertState :=
  match getItem s.store.storage "cache_certificates" with
  | none => some s
  | some raw =>
    if raw = "" then some s
    else
      match parseJson raw with
      | none => none
      | some j =>
        match destructData j with
        | none => none
        | some d => some { s with certificates := decodeCerts d, loading := false }

/-- Steps 2-4 (lines 82-88): the awaited acquisition, then publish, cache
write, and flag reconciliation; `fetchOk = false` models the acquisition
rejecting, handled by the catch block (lines 89-92). -/
def fetchStep (fetchOk : Bool) (now : Int) (s : CertState) : CertState :=
  if fetchOk then
    { s with certificates := certificatesData
             store := setCachedData s.store "certificates" (certsToJson certificatesData) now
             loading := false
             error := false }
  else { s with error := true, loading := false }

/-- The whole `loadData` sequence: the try block runs the cache step then the
fetch; any exception lands in the catch, which sets the error flag and clears
the loading flag. -/
def loadData (fetchOk : Bool) (now : Int) (s : CertState) : CertState :=
  match cacheStep s with
  | none => { s with error := true, loading := false }
  | some s1 => fetchStep fetchOk now s1

inductive RenderMode where
  | skeleton
  | errorView
  | content
  deriving DecidableEq, Repr

/-- The page's early-return render gate (lines 147-148):
`if (loading && certificates.length === 0) return <TableSkeleton/>;`
`if (error) return <ErrorDisplay/>;` and otherwise the table renders. -/
def renderMode (s : CertState) : RenderMode :=
  if s.loading && decide (s.certificates.length = 0) then .skeleton
  else if s.error then .errorView
  else .content

/-- The edit drawer's commit (lines 392-403): replace by identifier match in
the in-memory dataset only. -/
def commitEdit (editing : Certificate) (s : CertState) : CertState :=
  { s with certificates :=
      s.certificates.map (fun c => if c.id = editing.id then editing else c) }

/-! ### Concrete fixtures for counterexamples and witnesses. -/

def emptyStore : Store := ⟨[], []⟩

/-- A store whose certificates slot holds a payload that is not valid JSON. -/
def badStore : Store := ⟨[], [("cache_certificates", "not json")]⟩

/-- The certificates view at mount time over `badStore`. -/
def cert0State : CertState := ⟨[], true, false, badStore⟩

/-- The certificates view at mount time over a store whose certificates slot
holds the empty string — a falsy payload that `JSON.parse` would reject but
that the truthiness check skips. -/
def emptyPayloadState : CertState :=
  ⟨[], true, false, ⟨[], [("cache_certificates", "")]⟩⟩

/-- The certificates view after a successful load over an empty store: the
canonical dataset is published and no cache entry exists. -/
def previewState : CertState := ⟨certificatesData, false, false, emptyStore⟩

def mkLog (i : String) : AuditLog :=
  ⟨i, "2024-01-01", "alice", "alice@example.com", "SSH_LOGIN",
    "server-1", "/etc/ssh", Json.null⟩

/-- A three-record audit dataset. -/
def logs3 : List AuditLog := [mkLog "log-1", mkLog "log-2", mkLog "log-3"]

/-- An eleven-record filtered list (so `totalPages = 2`). -/
def certs11 : List Certificate := List.replicate 11 specC1

/-- A locally edited copy of `specC1` with a fresh name. -/
def editedC1 : Certificate := { specC1 with name := "Renamed Cert" }

/-- The frozen statement of C2: the revealed count never decreases at any
event and, in every state reachable from a freshly loaded view by reveal
triggers and filter/search changes, never exceeds the filtered length. -/
def C2Claim : Prop :=
  (∀ (s : AuditState) (e : AuditEvent),
    s.displayedCount ≤ (stepAudit e s).displayedCount) ∧
  (∀ (logs : List AuditLog) (es : List AuditEvent),
    (runAudit (loadedAuditState logs) es).displayedCount
      ≤ (filteredLogs (runAudit (loadedAuditState logs) es)).length)

/-- The frozen statement of C3: for in-range pages the displayed window has
length `min(pageSize, filteredCount - (page-1)*pageSize)`, and every
Previous/Next page request lands inside `[1, totalPages]`. -/
def C3Claim : Prop :=
  (∀ (p : Nat) (fs : List Certificate), 1 ≤ p → p ≤ totalPages fs →
    (paginatedData p fs).length
      = min ITEMS_PER_PAGE (fs.length - (p - 1) * ITEMS_PER_PAGE)) ∧
  (∀ (p : Nat) (fs : List Certificate),
    (1 ≤ prevPageReq p ∧ prevPageReq p ≤ totalPages fs) ∧
    (1 ≤ nextPageReq (totalPages fs) p ∧ nextPageReq (totalPages fs) p ≤ totalPages fs))

/-- The frozen statement of C1: a durable payload that fails to parse is
treated as a cache miss — no error is surfaced and the load still ends with
the canonical dataset published. -/
def C1Claim : Prop :=
  ∀ (s : CertState) (now : Int) (raw : String),
    getItem s.store.storage "cache_certificates" = some raw →
    parseJson raw = none →
    (loadData true now s).error = false ∧
    (loadData true now s).certificates = certificatesData

/-- The frozen statement of C4: when the acquisition fails, the error flag is
set, the loading flag cleared, the published data (the cached preview, if
any) is unchanged — and the view still shows that data (the preview and the
error affordance coexist on screen). -/
def C4Claim : Prop :=
  ∀ (s : CertState) (now : Int),
    (cacheStep s).isSome = true →
    (loadData false now s).error = true ∧
    (loadData false now s).loading = false ∧
    (loadData false now s).certificates = ((cacheStep s).getD s).certificates ∧
    renderMode (loadData false now s) = RenderMode.content

theorem filter_insertLe_pos (le : α → α → Bool) (p : α → Bool)
    (hp : ∀ a b, p a = true → p b = true → le a b = true)
    (x : α) (hx : p x = true) :
    ∀ l : List α, (insertLe le x l).filter p = x :: l.filter p := by
  intro l
  induction l with
  | nil => simp [insertLe, hx]
  | cons y ys ih =>
    by_cases hy : le x y = true
    · simp [insertLe, hy, hx]
    · have hpy : p y = false := by
        cases hpy : p y with
        | false => rfl
        | true => exact absurd (hp x y hx hpy) hy
      simp [insertLe, hy, hpy, ih]

theorem filter_insertLe_neg (le : α → α → Bool) (p : α → Bool)
    (x : α) (hx : p x = false) :
    ∀ l : List α, (insertLe le x l).filter p = l.filter p := by
  intro l
  induction l with
  | nil => simp [insertLe, hx]
  | cons y ys ih =>
    by_cases hy : le x y = true
    · simp [insertLe, hy, hx]
    · cases hpy : p y with
      | false => simp [insertLe, hy, hpy, ih]
      | true => simp [insertLe, hy, hpy, ih]

/-- Stability of the sort model, phrased through tie-classes: any predicate
that only holds inside one class of mutually `le`-tied elements filters to the
same subsequence before and after sorting. -/
theorem filter_sortLe (le : α → α → Bool) (p : α → Bool)
    (hp : ∀ a b, p a = true → p b = true → le a b = true) :
    ∀ xs : List α, (sortLe le xs).filter p = xs.filter p := by
  intro xs
  induction xs with
  | nil => rfl
  | cons x xs ih =>
    cases hx : p x with
    | true => simp [sortLe, filter_insertLe_pos le p hp x hx, ih, hx]
    | false => simp [sortLe, filter_insertLe_neg le p x hx, ih, hx]

theorem insertLe_perm (le : α → α → Bool) (x : α) :
    ∀ l : List α, (insertLe le x l).Perm (x :: l) := by
  intro l
  induction l with
  | nil => exact List.Perm.refl _
  | cons y ys ihl =>
    by_cases hy : le x y = true
    · simp [insertLe, hy]
    · simp only [insertLe, hy, if_false, Bool.false_eq_true]
      exact ((ihl.cons y).trans (List.Perm.swap x y ys))

/-- Sorting permutes, hence preserves length and membership. -/
theorem sortLe_perm (le : α → α → Bool) :
    ∀ xs : List α, (sortLe le xs).Perm xs := by
  intro xs
  induction xs with
  | nil => exact List.Perm.refl _
  | cons x xs ih =>
    exact (insertLe_perm le x (sortLe le xs)).trans (List.Perm.cons x ih)

theorem lexLe_trans : ∀ x y z, lexLe x y = true → lexLe y z = true → lexLe x z = true := by
  intro x
  induction x with
  | nil => intro y z _ _; cases z <;> rfl
  | cons a as ih =>
    intro y z hxy hyz
    cases y with
    | nil => simp [lexLe] at hxy
    | cons b bs =>
      cases z with
      | nil => simp [lexLe] at hyz
      | cons c cs =>
        by_cases hab : a = b
        · subst hab
          by_cases hbc : a = c
          · subst hbc
            simp only [lexLe, if_pos rfl] at hxy hyz ⊢
            exact ih bs cs hxy hyz
          · simp only [lexLe, if_pos rfl] at hxy
            simp only [lexLe, if_neg hbc] at hyz ⊢
            exact hyz
        · simp only [lexLe, if_neg hab] at hxy
          have hlt1 : a < b := of_decide_eq_true hxy
          by_cases hbc : b = c
          · subst hbc
            simp only [lexLe, if_neg hab]
            exact hxy
          · simp only [lexLe, if_neg hbc] at hyz
            have hlt2 : b < c := of_decide_eq_true hyz
            have hlt : a < c := lt_trans hlt1 hlt2
            simp only [lexLe, if_neg (ne_of_lt hlt)]
            exact decide_eq_true hlt

theorem isDigit_digitChar (d : Nat) (h : d < 10) : (Nat.digitChar d).isDigit = true := by
  interval_cases d <;> decide

theorem charDigitVal_digitChar (d : Nat) (h : d < 10) : charDigitVal (Nat.digitChar d) = d := by
  interval_cases d <;> decide

theorem natChars_ne_nil (m : Nat) : natChars m ≠ [] := by
  rw [natChars]
  by_cases h : m < 10
  · simp [h]
  · simp [h]

theorem natChars_digits (m : Nat) : ∀ c ∈ natChars m, c.isDigit = true := by
  induction m using Nat.strong_induction_on with
  | _ m ih =>
    rw [natChars]
    by_cases h : m < 10
    · simp only [dif_pos h, List.mem_singleton]
      rintro c rfl
      exact isDigit_digitChar m h
    · simp only [dif_neg h, List.mem_append, List.mem_singleton]
      rintro c (hc | rfl)
      · exact ih (m / 10) (Nat.div_lt_self (by omega) (by omega)) c hc
      · exact isDigit_digitChar _ (Nat.mod_lt _ (by omega))

theorem digitsToNat_append_singleton (xs : List Char) (c : Char) :
    digitsToNat (xs ++ [c]) = 10 * digitsToNat xs + charDigitVal c := by
  simp [digitsToNat, List.foldl_append]
  ring

theorem digitsToNat_natChars (m : Nat) : digitsToNat (natChars m) = m := by
  induction m using Nat.strong_induction_on with
  | _ m ih =>
    rw [natChars]
    by_cases h : m < 10
    · simp only [dif_pos h]
      simp [digitsToNat, charDigitVal_digitChar m h]
    · simp only [dif_neg h]
      rw [digitsToNat_append_singleton,
        ih (m / 10) (Nat.div_lt_self (by omega) (by omega)),
        charDigitVal_digitChar _ (Nat.mod_lt _ (by omega))]
      omega

theorem takeDigits_append (ds : List Char) (r : List Char)
    (hds : ∀ c ∈ ds, c.isDigit = true) (hr : headDigitFree r = true) :
    takeDigits (ds ++ r) = (ds, r) := by
  induction ds with
  | nil =>
    cases r with
    | nil => rfl
    | cons c r' =>
      have : c.isDigit = false := by
        simp [headDigitFree] at hr
        exact hr
      simp [takeDigits, this]
  | cons c ds' ih =>
    have hc : c.isDigit = true := hds c (by simp)
    have := ih (fun c hc => hds c (by simp [hc]))
    simp [takeDigits, hc, this]

theorem parseStrB_escBody (s : List Char) :
    ∀ r, parseStrB false (escBody s ++ r) = some (s, r) := by
  induction s with
  | nil =>
    intro r
    show parseStrB false (qChar :: r) = some ([], r)
    rw [parseStrB, if_neg (by decide : ¬ qChar = bsChar), if_pos rfl]
  | cons c cs ih =>
    intro r
    by_cases hc : c = qChar ∨ c = bsChar
    · show parseStrB false ((if c = qChar ∨ c = bsChar then
        bsChar :: c :: escBody cs else c :: escBody cs) ++ r) = _
      rw [if_pos hc]
      show parseStrB false (bsChar :: c :: (escBody cs ++ r)) = _
      rw [parseStrB, if_pos rfl, parseStrB, ih r]
      rfl
    · show parseStrB false ((if c = qChar ∨ c = bsChar then
        bsChar :: c :: escBody cs else c :: escBody cs) ++ r) = _
      rw [if_neg hc]
      push_neg at hc
      show parseStrB false (c :: (escBody cs ++ r)) = _
      rw [parseStrB, if_neg hc.2, if_neg hc.1, ih r]
      rfl

theorem isDigit_ne (c d : Char) (h : c.isDigit = true) (hd : d.isDigit = false) : ¬ c = d := by
  rintro rfl
  rw [h] at hd
  cases hd

/-- Every serialized value is nonempty and starts with a character that is
neither a closing bracket nor a closing brace. -/
theorem sV_head (v : Json) :
    ∃ c cs, sV v = c :: cs ∧ ¬ c = ']' ∧ ¬ c = rbrace := by
  cases v with
  | null => refine ⟨'n', _, rfl, ?_, ?_⟩ <;> decide
  | bool b =>
    cases b with
    | true => refine ⟨'t', _, rfl, ?_, ?_⟩ <;> decide
    | false => refine ⟨'f', _, rfl, ?_, ?_⟩ <;> decide
  | num n =>
    show ∃ c cs, intChars n = c :: cs ∧ _
    rw [intChars]
    by_cases h : n < 0
    · refine ⟨'-', _, by rw [if_pos h], ?_, ?_⟩ <;> decide
    · rw [if_neg h]
      cases hnc : natChars n.toNat with
      | nil => exact absurd hnc (natChars_ne_nil _)
      | cons c cs =>
        have hc : c.isDigit = true := natChars_digits _ c (by rw [hnc]; simp)
        refine ⟨c, cs, rfl, isDigit_ne c _ hc ?_, isDigit_ne c _ hc ?_⟩ <;> decide
  | str s => refine ⟨qChar, _, rfl, ?_, ?_⟩ <;> decide
  | arr a => refine ⟨'[', _, rfl, ?_, ?_⟩ <;> decide
  | obj o => refine ⟨lbrace, _, rfl, ?_, ?_⟩ <;> decide

theorem sV_length_pos (v : Json) : 1 ≤ (sV v).length := by
  obtain ⟨c, cs, h, -, -⟩ := sV_head v
  rw [h]
  simp

theorem sA_length_pos (a : JsonArr) : 1 ≤ (sA a).length := by
  cases a with
  | nil => decide
  | cons v tl =>
    simp only [sA, List.length_append]
    have := sV_length_pos v
    omega

theorem sO_length_pos (o : JsonObj) : 1 ≤ (sO o).length := by
  cases o with
  | nil => decide
  | cons k v tl =>
    show 1 ≤ (qChar :: _).length
    simp

mutual
theorem dV_le_sV : ∀ v : Json, dV v ≤ (sV v).length
  | .null => by simp [dV, sV]
  | .bool b => by cases b <;> simp [dV, sV]
  | .num n => by simp [dV]
  | .str s => by simp [dV]
  | .arr a => by
    have h := dA_le_sA a
    show dA a + 1 ≤ ('[' :: sA a).length
    simp only [List.length_cons]
    omega
  | .obj o => by
    have h := dO_le_sO o
    show dO o + 1 ≤ (lbrace :: sO o).length
    simp only [List.length_cons]
    omega
theorem dA_le_sA : ∀ a : JsonArr, dA a ≤ (sA a).length
  | .nil => by simp [dA]
  | .cons v tl => by
    have h1 := dV_le_sV v
    have h2 := dA_le_sA tl
    have h3 := sV_length_pos v
    have h4 := sA_length_pos tl
    show max (dV v) (dA tl) + 1 ≤ (sV v ++ _ ++ sA tl).length
    simp only [List.length_append]
    omega
theorem dO_le_sO : ∀ o : JsonObj, dO o ≤ (sO o).length
  | .nil => by simp [dO]
  | .cons k v tl => by
    have h1 := dV_le_sV v
    have h2 := dO_le_sO tl
    have h4 := sO_length_pos tl
    show max (dV v) (dO tl) + 1 ≤ (qChar :: (escBody k.data ++ ':' :: sV v ++ _ ++ sO tl)).length
    simp only [List.length_cons, List.length_append]
    omega
end

theorem dropLit_append (ls : List Char) : ∀ r, dropLit ls (ls ++ r) = some r := by
  induction ls with
  | nil => intro r; rfl
  | cons l ls ih => intro r; simp [dropLit, ih r]

/-- The parser inverts the stringifier, given enough fuel (and a remainder
that does not extend a numeral). -/
theorem parse_spec : ∀ fuel : Nat,
    (∀ v : Json, dV v < fuel → ∀ r, headDigitFree r = true →
      parseVal fuel (sV v ++ r) = some (v, r)) ∧
    (∀ a : JsonArr, a ≠ .nil → dA a < fuel → ∀ r,
      parseElems fuel (sA a ++ r) = some (a, r)) ∧
    (∀ o : JsonObj, o ≠ .nil → dO o < fuel → ∀ r,
      parseMembers fuel (sO o ++ r) = some (o, r)) := by
  intro fuel
  induction fuel with
  | zero =>
    refine ⟨fun v h => absurd h (Nat.not_lt_zero _),
      fun a _ h => absurd h (Nat.not_lt_zero _),
      fun o _ h => absurd h (Nat.not_lt_zero _)⟩
  | succ fuel ih =>
    obtain ⟨ihV, ihA, ihO⟩ := ih
    refine ⟨?_, ?_, ?_⟩
    · -- values
      intro v hd r hr
      cases v with
      | null => rfl
      | bool b => cases b <;> rfl
      | num n =>
        cases n with
        | ofNat m =>
          show parseVal (fuel + 1) (intChars (Int.ofNat m) ++ r) = _
          rw [intChars, if_neg (show ¬ Int.ofNat m < 0 from not_lt.mpr (Int.ofNat_nonneg m))]
          obtain ⟨c, ds, hnc⟩ : ∃ c ds, natChars (Int.ofNat m).toNat = c :: ds := by
            cases h : natChars (Int.ofNat m).toNat with
            | nil => exact absurd h (natChars_ne_nil _)
            | cons c ds => exact ⟨c, ds, rfl⟩
          have hcdig : c.isDigit = true :=
            natChars_digits _ c (by rw [hnc]; exact List.mem_cons_self _ _)
          have ht : takeDigits (natChars (Int.ofNat m).toNat ++ r)
              = (natChars (Int.ofNat m).toNat, r) :=
            takeDigits_append _ _ (natChars_digits _) hr
          rw [hnc] at ht ⊢
          rw [List.cons_append]
          simp only [parseVal, if_pos hcdig]
          rw [← List.cons_append, ht]
          rw [← hnc, digitsToNat_natChars]
          simp
        | negSucc m =>
          show parseVal (fuel + 1) (intChars (Int.negSucc m) ++ r) = _
          rw [intChars, if_pos (Int.negSucc_lt_zero m)]
          have habs : (Int.negSucc m).natAbs = m + 1 := rfl
          rw [habs, List.cons_append]
          simp only [parseVal, if_neg (by decide : ¬ ('-'.isDigit = true)), if_pos rfl]
          have ht : takeDigits (natChars (m + 1) ++ r) = (natChars (m + 1), r) :=
            takeDigits_append _ _ (natChars_digits _) hr
          rw [ht]
          obtain ⟨c, ds, hnc⟩ : ∃ c ds, natChars (m + 1) = c :: ds := by
            cases h : natChars (m + 1) with
            | nil => exact absurd h (natChars_ne_nil _)
            | cons c ds => exact ⟨c, ds, rfl⟩
          rw [hnc]
          show some (Json.num (-(Int.ofNat (digitsToNat (c :: ds)))), r) = _
          rw [← hnc, digitsToNat_natChars]
          have hneg : -(Int.ofNat (m + 1)) = Int.negSucc m := by
            rw [Int.negSucc_eq]
            simp
          rw [hneg]
      | str s =>
        show parseVal (fuel + 1) (qChar :: (escBody s.data ++ r)) = _
        simp only [parseVal,
          if_neg (by decide : ¬ (qChar.isDigit = true)),
          if_neg (by decide : ¬ qChar = '-'),
          if_neg (by decide : ¬ qChar = 'n'),
          if_neg (by decide : ¬ qChar = 't'),
          if_neg (by decide : ¬ qChar = 'f'),
          if_pos rfl]
        rw [parseStrB_escBody]
        rfl
      | arr a =>
        cases a with
        | nil => rfl
        | cons v tl =>
          show parseVal (fuel + 1) ('[' :: (sA (JsonArr.cons v tl) ++ r)) = _
          obtain ⟨c0, cs0, hv0, hne1, hne2⟩ := sV_head v
          have hform : sA (JsonArr.cons v tl) ++ r
              = c0 :: (cs0 ++ (sepA tl ++ (sA tl ++ r))) := by
            simp only [sA]
            rw [hv0]
            simp [List.append_assoc]
          simp only [parseVal,
            if_neg (by decide : ¬ ('['.isDigit = true)),
            if_neg (by decide : ¬ '[' = '-'),
            if_neg (by decide : ¬ '[' = 'n'),
            if_neg (by decide : ¬ '[' = 't'),
            if_neg (by decide : ¬ '[' = 'f'),
            if_neg (by decide : ¬ '[' = qChar),
            if_pos rfl]
          rw [hform, List.head?_cons,
            if_neg (show ¬ (some c0 = some ']') by simp [hne1])]
          rw [← hform]
          have hda : dA (JsonArr.cons v tl) < fuel := by
            have : dV (Json.arr (JsonArr.cons v tl)) = dA (JsonArr.cons v tl) + 1 := rfl
            omega
          rw [ihA (JsonArr.cons v tl) (by intro h; cases h) hda r]
          rfl
      | obj o =>
        cases o with
        | nil => rfl
        | cons k v tl =>
          show parseVal (fuel + 1) (lbrace :: (sO (JsonObj.cons k v tl) ++ r)) = _
          have hform : sO (JsonObj.cons k v tl) ++ r
              = qChar :: (escBody k.data ++ (':' :: (sV v ++ (sepO tl ++ (sO tl ++ r))))) := by
            simp only [sO]
            simp [List.append_assoc]
          simp only [parseVal,
            if_neg (by decide : ¬ (lbrace.isDigit = true)),
            if_neg (by decide : ¬ lbrace = '-'),
            if_neg (by decide : ¬ lbrace = 'n'),
            if_neg (by decide : ¬ lbrace = 't'),
            if_neg (by decide : ¬ lbrace = 'f'),
            if_neg (by decide : ¬ lbrace = qChar),
            if_neg (by decide : ¬ lbrace = '['),
            if_pos rfl]
          rw [hform, List.head?_cons,
            if_neg (show ¬ (some qChar = some rbrace) by decide)]
          rw [← hform]
          have hdo : dO (JsonObj.cons k v tl) < fuel := by
            have : dV (Json.obj (JsonObj.cons k v tl)) = dO (JsonObj.cons k v tl) + 1 := rfl
            omega
          rw [ihO (JsonObj.cons k v tl) (by intro h; cases h) hdo r]
          rfl
    · -- array elements
      intro a hne hd r
      cases a with
      | nil => exact absurd rfl hne
      | cons v tl =>
        have hassoc : sA (JsonArr.cons v tl) ++ r
            = sV v ++ (sepA tl ++ (sA tl ++ r)) := by
          simp only [sA]
          simp [List.append_assoc]
        have hdv : dV v < fuel := by
          have : dA (JsonArr.cons v tl) = max (dV v) (dA tl) + 1 := rfl
          omega
        have hfree : headDigitFree (sepA tl ++ (sA tl ++ r)) = true := by
          cases tl <;> rfl
        simp only [parseElems]
        rw [hassoc, ihV v hdv _ hfree]
        cases tl with
        | nil => rfl
        | cons v2 tl2 =>
          show (if ',' = ',' then
              (parseElems fuel (sA (JsonArr.cons v2 tl2) ++ r)).map
                (fun p => (JsonArr.cons v p.1, p.2))
            else if ',' = ']' then some (JsonArr.cons v .nil, sA (JsonArr.cons v2 tl2) ++ r)
            else none) = _
          rw [if_pos rfl]
          have hdtl : dA (JsonArr.cons v2 tl2) < fuel := by
            have : dA (JsonArr.cons v (JsonArr.cons v2 tl2))
                = max (dV v) (dA (JsonArr.cons v2 tl2)) + 1 := rfl
            omega
          rw [ihA (JsonArr.cons v2 tl2) (by intro h; cases h) hdtl r]
          rfl
    · -- object members
      intro o hne hd r
      cases o with
      | nil => exact absurd rfl hne
      | cons k v tl =>
        have hassoc : sO (JsonObj.cons k v tl) ++ r
            = qChar :: (escBody k.data ++ (':' :: (sV v ++ (sepO tl ++ (sO tl ++ r))))) := by
          simp only [sO]
          simp [List.append_assoc]
        have hdv : dV v < fuel := by
          have : dO (JsonObj.cons k v tl) = max (dV v) (dO tl) + 1 := rfl
          omega
        have hfree : headDigitFree (sepO tl ++ (sO tl ++ r)) = true := by
          cases tl <;> rfl
        rw [hassoc]
        simp only [parseMembers, if_pos rfl]
        rw [parseStrB_escBody]
        dsimp only
        rw [if_pos rfl]
        rw [ihV v hdv _ hfree]
        cases tl with
        | nil => rfl
        | cons k2 v2 tl2 =>
          have hm : sepO (JsonObj.cons k2 v2 tl2) ++ (sO (JsonObj.cons k2 v2 tl2) ++ r)
              = ',' :: (sO (JsonObj.cons k2 v2 tl2) ++ r) := rfl
          rw [hm]
          dsimp only
          rw [if_pos rfl]
          have hdtl : dO (JsonObj.cons k2 v2 tl2) < fuel := by
            have : dO (JsonObj.cons k v (JsonObj.cons k2 v2 tl2))
                = max (dV v) (dO (JsonObj.cons k2 v2 tl2)) + 1 := rfl
            omega
          rw [ihO (JsonObj.cons k2 v2 tl2) (by intro h; cases h) hdtl r]
          rfl

/-- `JSON.parse` inverts `JSON.stringify` on every JSON value. -/
theorem parseJson_stringifyJson (v : Json) : parseJson (stringifyJson v) = some v := by
  have hd : dV v < (sV v).length + 1 := Nat.lt_succ_of_le (dV_le_sV v)
  have h := (parse_spec ((sV v).length + 1)).1 v hd [] rfl
  rw [List.append_nil] at h
  simp only [parseJson, stringifyJson]
  rw [h]

theorem certLe_trans (sortBy : String) :
    ∀ a b c, certLe sortBy a b = true → certLe sortBy b c = true →
      certLe sortBy a c = true := by
  intro a b c hab hbc
  by_cases h : sortBy = "expiryDate"
  · simp only [certLe, if_pos h] at hab hbc ⊢
    exact decide_eq_true (le_trans (of_decide_eq_true hab) (of_decide_eq_true hbc))
  · simp only [certLe, if_neg h] at hab hbc ⊢
    exact lexLe_trans _ _ _ hab hbc

theorem sshLe_trans (sortBy : String) :
    ∀ a b c, sshLe sortBy a b = true → sshLe sortBy b c = true →
      sshLe sortBy a c = true := by
  intro a b c hab hbc
  by_cases h : sortBy = "trustLevel"
  · simp only [sshLe, if_pos h] at hab hbc ⊢
    exact decide_eq_true (le_trans (of_decide_eq_true hbc) (of_decide_eq_true hab))
  · simp only [sshLe, if_neg h] at hab hbc ⊢
    exact lexLe_trans _ _ _ hab hbc

theorem getItem_setItem (st : List (String × String)) (k v : String) :
    getItem (setItem st k v) k = some v := by
  induction st with
  | nil => simp [setItem, getItem]
  | cons p rest ih =>
    by_cases h : p.1 = k
    · simp [setItem, getItem, h]
    · simp [setItem, getItem, h, ih]

theorem getAssoc_setAssoc (st : List (String × Json)) (k : String) (v : Json) :
    getAssoc (setAssoc st k v) k = some v := by
  induction st with
  | nil => simp [setAssoc, getAssoc]
  | cons p rest ih =>
    by_cases h : p.1 = k
    · simp [setAssoc, getAssoc, h]
    · simp [setAssoc, getAssoc, h, ih]

/-! ### Stage lemmas used by several claims. -/

theorem actionStage_sublist (a : String) (xs : List AuditLog) :
    (actionStage a xs).Sublist xs := by
  unfold actionStage
  split
  · exact List.filter_sublist xs
  · exact List.Sublist.refl xs

theorem auditSearchStage_sublist (t : String) (xs : List AuditLog) :
    (auditSearchStage t xs).Sublist xs := by
  unfold auditSearchStage
  split
  · exact List.filter_sublist xs
  · exact List.Sublist.refl xs

theorem dateFromStage_sublist (lo : Option Int) (xs : List AuditLog) :
    (dateFromStage lo xs).Sublist xs := by
  unfold dateFromStage
  split
  · exact List.filter_sublist xs
  · exact List.Sublist.refl xs

theorem dateToStage_sublist (hi : Option Int) (xs : List AuditLog) :
    (dateToStage hi xs).Sublist xs := by
  unfold dateToStage
  split
  · exact List.filter_sublist xs
  · exact List.Sublist.refl xs

theorem filteredLogs_sublist (s : AuditState) : (filteredLogs s).Sublist s.logs :=
  ((dateToStage_sublist _ _).trans (dateFromStage_sublist _ _)).trans
    ((auditSearchStage_sublist _ _).trans (actionStage_sublist _ _))

/-! ### The claims. -/

/-- C5: the free-text search stage retains a record iff the term is a
case-insensitive substring of any of the variant's search fields
(name/domain/issuer for certificates), the empty term retains everything,
and searching "A.COM" over the two-record example dataset returns exactly
the record whose domain is "a.com". -/
theorem C5_search_characterisation :
    (∀ (term : String) (xs : List Certificate) (c : Certificate),
      c ∈ searchStage term xs ↔ c ∈ xs ∧ (term = "" ∨ certMatches term c = true)) ∧
    filteredAndSorted "all" "A.COM" "expiryDate" certificatesData = [specC1] := by
  constructor
  · intro term xs c
    unfold searchStage
    by_cases h : term = ""
    · simp [h]
    · simp [h, List.mem_filter]
  · decide

/-- C5 witness: the characterisation applied at the concrete scenario. -/
theorem C5_search_characterisation_witness :
    specC1 ∈ searchStage "A.COM" certificatesData :=
  (C5_search_characterisation.1 "A.COM" certificatesData specC1).mpr (by decide)

set_option maxRecDepth 8192 in
/-- C6: with filter "all" and sort mode "expiryDate", the pipeline orders the
two-record dataset soonest-expiry-first, `[c2, c1]`, and the comparison is by
parsed instant (c2's 2001 expiry precedes c1's 2099 expiry as an epoch
value), not by any property of the strings themselves. -/
theorem C6_expiry_sort_e2e :
    filteredAndSorted "all" "" "expiryDate" certificatesData = [specC2, specC1] ∧
    parseDate specC2.expiryDate < parseDate specC1.expiryDate := by
  constructor
  · decide
  · decide

/-- C7: the sort stage is stable.  For each page's comparator and any two
tied records (`le` holds both ways, i.e. equal sort keys), their relative
order survives sorting — stated through tie-classes: the subsequence of
records tied with any fixed record `c` is unchanged by the sort stage. -/
theorem C7_sort_stage_stable :
    (∀ (sortBy : String) (c : Certificate) (xs : List Certificate),
      (sortStage sortBy xs).filter (fun x => certLe sortBy x c && certLe sortBy c x)
        = xs.filter (fun x => certLe sortBy x c && certLe sortBy c x)) ∧
    (∀ (sortBy : String) (k : SSHKey) (ys : List SSHKey),
      (sshSortStage sortBy ys).filter (fun x => sshLe sortBy x k && sshLe sortBy k x)
        = ys.filter (fun x => sshLe sortBy x k && sshLe sortBy k x)) := by
  constructor
  · intro sortBy c xs
    refine filter_sortLe (certLe sortBy) _ ?_ xs
    intro a b ha hb
    simp only [Bool.and_eq_true] at ha hb
    exact certLe_trans sortBy a c b ha.1 hb.2
  · intro sortBy k ys
    refine filter_sortLe (sshLe sortBy) _ ?_ ys
    intro a b ha hb
    simp only [Bool.and_eq_true] at ha hb
    exact sshLe_trans sortBy a k b ha.1 hb.2

/-- C10: the audit-logs pipeline has no sort stage: the displayed list is the
`min(displayedCount, filteredCount)`-prefix of the filtered list, and both
the filtered and the displayed lists are order-preserving subsequences of the
original dataset. -/
theorem C10_no_sort_prefix_window (s : AuditState) :
    displayedLogs s = (filteredLogs s).take (min s.displayedCount (filteredLogs s).length) ∧
    (displayedLogs s).length = min s.displayedCount (filteredLogs s).length ∧
    (filteredLogs s).Sublist s.logs ∧
    (displayedLogs s).Sublist s.logs := by
  refine ⟨?_, ?_, filteredLogs_sublist s, ?_⟩
  · unfold displayedLogs
    rw [List.take_eq_take]
    omega
  · unfold displayedLogs
    rw [List.length_take]
  · exact (List.take_sublist _ _).trans (filteredLogs_sublist s)

/-- C2 counterexample: on a freshly loaded three-record dataset, with no
events at all, the revealed count is its initial value 10 while the filtered
length is 3 — the count exceeds the filtered length. -/
theorem C2_counterexample : ¬ C2Claim :=
  fun h => absurd (h.2 logs3 []) (by decide)

/-- C2 amended: the revealed count is monotonically non-decreasing across
reveal triggers and is untouched by filter/search changes; a reveal trigger
never raises it above the filtered length (the increment is clamped there);
and the displayed subsequence's length is `min(displayedCount,
filteredCount)`, hence never exceeds the filtered length.  The count itself,
however, may exceed the filtered length: it starts at 10 and is not reduced
when a filter change shrinks the results. -/
theorem C2_amended_reveal_invariants :
    (∀ (s : AuditState) (e : AuditEvent),
      s.displayedCount ≤ (stepAudit e s).displayedCount) ∧
    (∀ s : AuditState,
      (stepAudit .reveal s).displayedCount
        ≤ max s.displayedCount (filteredLogs s).length) ∧
    (∀ s : AuditState,
      (displayedLogs s).length = min s.displayedCount (filteredLogs s).length) := by
  refine ⟨?_, ?_, ?_⟩
  · intro s e
    cases e with
    | reveal =>
      simp only [stepAudit]
      by_cases hl : s.loading
      · simp [hl]
      · simp only [hl, if_false, Bool.false_eq_true]
        unfold loadMore
        by_cases hc : s.displayedCount < (filteredLogs s).length
        · simp only [hc, if_pos]
          simp
          omega
        · simp [hc]
    | setFilter a => exact le_refl _
    | setSearch t => exact le_refl _
    | setRange lo hi => exact le_refl _
  · intro s
    simp only [stepAudit]
    by_cases hl : s.loading
    · simp [hl]
    · simp only [hl, if_false, Bool.false_eq_true]
      unfold loadMore
      by_cases hc : s.displayedCount < (filteredLogs s).length
      · simp only [hc, if_pos]
        simp
      · simp only [hc, if_false]
        exact le_max_left _ _
  · intro s
    unfold displayedLogs
    rw [List.length_take]

/-- C3 counterexample: with an 11-record filtered list (`totalPages = 2`) and
a stale current page of 5 — reachable because filter changes never reset the
page — the Previous request computes `max(1, 4) = 4`, outside `[1, 2]`. -/
theorem C3_counterexample : ¬ C3Claim :=
  fun h => absurd ((h.2 5 certs11).1).2 (by decide)

/-- C3 amended: the in-range window-length law holds; Previous and Next clamp
at the boundaries (page 1, page `totalPages`) and preserve membership of
`[1, totalPages]` from any in-range page; but a stale out-of-range page is
not forced back into range by a single Previous/Next request (filter changes
do not reset the page, per the design's own open question). -/
theorem C3_amended_paging :
    (∀ (p : Nat) (fs : List Certificate), 1 ≤ p → p ≤ totalPages fs →
      (paginatedData p fs).length
        = min ITEMS_PER_PAGE (fs.length - (p - 1) * ITEMS_PER_PAGE)) ∧
    (∀ (p : Nat) (fs : List Certificate), 1 ≤ p → p ≤ totalPages fs →
      (1 ≤ prevPageReq p ∧ prevPageReq p ≤ totalPages fs) ∧
      (1 ≤ nextPageReq (totalPages fs) p ∧ nextPageReq (totalPages fs) p ≤ totalPages fs)) ∧
    prevPageReq 1 = 1 ∧
    (∀ tp : Nat, nextPageReq tp tp = tp) := by
  refine ⟨?_, ?_, rfl, ?_⟩
  · intro p fs _ _
    unfold paginatedData
    rw [List.length_take, List.length_drop]
  · intro p fs h1 h2
    unfold prevPageReq nextPageReq
    omega
  · intro tp
    unfold nextPageReq
    omega

/-- C3 witness: the amended paging laws applied on the concrete two-record
dataset at page 1. -/
theorem C3_amended_paging_witness :
    (paginatedData 1 certificatesData).length
      = min ITEMS_PER_PAGE (certificatesData.length - 0 * ITEMS_PER_PAGE) ∧
    1 ≤ prevPageReq 1 ∧ prevPageReq 1 ≤ totalPages certificatesData :=
  ⟨C3_amended_paging.1 1 certificatesData (by decide) (by decide),
    (C3_amended_paging.2.1 1 certificatesData (by decide) (by decide)).1.1,
    (C3_amended_paging.2.1 1 certificatesData (by decide) (by decide)).1.2⟩

/-- The cache step never touches the store (it only publishes to the view). -/
theorem cacheStep_store (s s1 : CertState) (h : cacheStep s = some s1) :
    s1.store = s.store := by
  unfold cacheStep at h
  split at h
  · injection h with h1
    subst h1
    rfl
  · split at h
    · injection h with h1
      subst h1
      rfl
    · split at h
      · exact Option.noConfusion h
      · split at h
        · exact Option.noConfusion h
        · injection h with h1
          subst h1
          rfl

/-- C1 counterexample: with `"not json"` stored under the certificates key,
the load sequence ends with the error flag set (the `JSON.parse` exception
lands in the catch block), not with a silent miss. -/
theorem C1_counterexample : ¬ C1Claim :=
  fun h => absurd (h cert0State 0 "not json" rfl rfl).1 (by decide)

/-- C1 amended: a stored payload that fails to parse splits on the loader's
truthiness test `if (cached)`.  A non-empty malformed payload is ignored in
the sense that it is not deleted (the store is untouched) and the view's
data is untouched, but its parse exception escapes to the load sequence's
catch-all, which sets the error flag, clears the loading flag, and skips the
canonical fetch — not a silent miss.  The empty-string payload, though it
would also fail `JSON.parse`, is falsy, so the cache branch is skipped
entirely and the load does behave as a silent cache miss: no error, and the
fetch publishes the canonical dataset. -/
theorem C1_amended_malformed_cache (s : CertState) (now : Int) (raw : String)
    (fetchOk : Bool)
    (hget : getItem s.store.storage "cache_certificates" = some raw)
    (hbad : parseJson raw = none) :
    (raw ≠ "" →
      (loadData fetchOk now s).error = true ∧
      (loadData fetchOk now s).loading = false ∧
      (loadData fetchOk now s).certificates = s.certificates ∧
      (loadData fetchOk now s).store = s.store) ∧
    (raw = "" →
      (loadData true now s).error = false ∧
      (loadData true now s).certificates = certificatesData) := by
  constructor
  · intro hne
    unfold loadData cacheStep
    rw [hget]
    dsimp only
    rw [if_neg hne]
    rw [hbad]
    exact ⟨rfl, rfl, rfl, rfl⟩
  · intro hemp
    subst hemp
    unfold loadData cacheStep
    rw [hget]
    dsimp only
    rw [if_pos rfl]
    exact ⟨rfl, rfl⟩

/-- C1 witness: the amended behaviour at two concrete stores — a non-empty
malformed payload raises into the catch, and an empty (falsy) payload is
skipped and behaves as a miss. -/
theorem C1_amended_malformed_cache_witness :
    ((loadData true 0 cert0State).error = true ∧
     (loadData true 0 cert0State).loading = false ∧
     (loadData true 0 cert0State).certificates = cert0State.certificates ∧
     (loadData true 0 cert0State).store = cert0State.store) ∧
    ((loadData true 0 emptyPayloadState).error = false ∧
     (loadData true 0 emptyPayloadState).certificates = certificatesData) :=
  ⟨(C1_amended_malformed_cache cert0State 0 "not json" true rfl rfl).1 (by decide),
    (C1_amended_malformed_cache emptyPayloadState 0 "" true rfl rfl).2 rfl⟩

/-- C4 counterexample: from a state with the canonical dataset published, a
failing reload leaves the data in the view state, but the page's early
return `if (error) return <ErrorDisplay/>` renders only the error
affordance — the stale data is not visible. -/
theorem C4_counterexample : ¬ C4Claim :=
  fun h => absurd ((h previewState 0 rfl).2.2.2) (by decide)

/-- C4 amended: a failing acquisition sets the error flag, clears the loading
flag, and leaves the published data and the store untouched — but the view
then renders only the error affordance (early return), so the stale preview
is not visible while the error is shown. -/
theorem C4_amended_failure_state (s : CertState) (now : Int)
    (h : (cacheStep s).isSome = true) :
    (loadData false now s).error = true ∧
    (loadData false now s).loading = false ∧
    (loadData false now s).certificates = ((cacheStep s).getD s).certificates ∧
    (loadData false now s).store = s.store ∧
    renderMode (loadData false now s) = RenderMode.errorView := by
  cases hcs : cacheStep s with
  | none => rw [hcs] at h; exact Bool.noConfusion h
  | some s1 =>
    have hframe : s1.store = s.store := cacheStep_store s s1 hcs
    unfold loadData
    rw [hcs]
    exact ⟨rfl, rfl, rfl, hframe, rfl⟩

/-- C4 witness: the amended failure behaviour at the concrete loaded state. -/
theorem C4_amended_failure_state_witness :
    (loadData false 0 previewState).error = true ∧
    (loadData false 0 previewState).loading = false ∧
    (loadData false 0 previewState).certificates
      = ((cacheStep previewState).getD previewState).certificates ∧
    (loadData false 0 previewState).store = previewState.store ∧
    renderMode (loadData false 0 previewState) = RenderMode.errorView :=
  C4_amended_failure_state previewState 0 rfl

/-- C8: the cache round-trip.  `put(key, data)` stringifies the entry, writes
it under `cache_<key>`, and a `get` immediately after parses back exactly
`data` (deep equality, through the full serialize/parse model) together with
`capturedAt = now`, the clock reading taken during the put itself — so the
timestamp cannot be earlier than the put call.  The in-memory mirror holds
`data` as well. -/
theorem C8_cache_roundtrip (st : Store) (key : String) (data : Json) (now : Int) :
    cacheGet (setCachedData st key data now).storage key = some (data, now) ∧
    getAssoc (setCachedData st key data now).cachedData key = some data := by
  constructor
  · show cacheGet (setItem st.storage ("cache_" ++ key)
      (stringifyJson (.obj (.cons "data" data (.cons "timestamp" (.num now) .nil))))) key
      = some (data, now)
    unfold cacheGet
    rw [getItem_setItem]
    dsimp only
    rw [parseJson_stringifyJson]
    rfl
  · exact getAssoc_setAssoc st.cachedData key data

/-- C9: committing a local edit replaces, position by position, exactly the
records whose identifier matches the edited record, writes nothing to the
mirror or durable storage, and is lost on a fresh load: when the full load
sequence re-runs and completes, the canonical dataset replaces the edited
one, so a renamed value absent from the canonical dataset is gone. -/
theorem C9_local_edit_commit (e : Certificate) (s : CertState) (now : Int)
    (hok : (cacheStep (commitEdit e s)).isSome = true)
    (hfresh : e.name ∉ certificatesData.map Certificate.name) :
    (∀ i : Nat,
      (commitEdit e s).certificates[i]?
        = (s.certificates[i]?).map (fun c => if c.id = e.id then e else c)) ∧
    (commitEdit e s).store = s.store ∧
    (loadData true now (commitEdit e s)).certificates = certificatesData ∧
    e.name ∉ ((loadData true now (commitEdit e s)).certificates.map Certificate.name) := by
  have hreload : (loadData true now (commitEdit e s)).certificates = certificatesData := by
    cases hcs : cacheStep (commitEdit e s) with
    | none => rw [hcs] at hok; exact Bool.noConfusion hok
    | some s1 =>
      unfold loadData
      rw [hcs]
      rfl
  refine ⟨?_, rfl, hreload, ?_⟩
  · intro i
    simp [commitEdit]
  · rw [hreload]
    exact hfresh

/-- C9 witness: renaming `c1` and re-running the load sequence over the
concrete loaded state; the rename is session-local and gone after reload. -/
theorem C9_local_edit_commit_witness :
    (commitEdit editedC1 previewState).store = previewState.store ∧
    editedC1.name ∉
      ((loadData true 0 (commitEdit editedC1 previewState)).certificates.map
        Certificate.name) :=
  ⟨(C9_local_edit_commit editedC1 previewState 0 rfl (by decide)).2.1,
    (C9_local_edit_commit editedC1 previewState 0 rfl (by decide)).2.2.2⟩

end IdDash
